import Mathlib

/-!
# Verification of the Ladruno `Model` discovery-and-orchestration core

Shallow embedding of `src/Ladruno/core/model.py`.

Paths are modelled as their component lists (`pathlib` "parts", without the
leading `/` anchor: all paths handled by `Model` are resolved absolute POSIX
paths, so the anchor is common to all of them and never affects comparisons).
A filesystem is the finite list of its entries (path plus kind), in
enumeration order.
-/

/-- Kind of a filesystem entry: a directory or a regular file. -/
inductive EntryKind where
  | file : EntryKind
  | dir : EntryKind
deriving DecidableEq, Repr

/-- One existing filesystem entry: its absolute path (component list) and kind. -/
structure FSEntry where
  path : List String
  kind : EntryKind
deriving DecidableEq, Repr

/-- A filesystem: the list of its entries, in enumeration order. -/
abbrev FS := List FSEntry

/-- `Path.exists()` of pathlib: true when an entry with this path is present,
regardless of whether it is a file or a directory. -/
def pexists (fs : FS) (p : List String) : Bool :=
  fs.any (fun e => e.path == p)

/-- `root` is an ancestor-or-self of `p`: componentwise path containment. -/
def isUnder (root p : List String) : Bool :=
  match root, p with
  | [], _ => true
  | _ :: _, [] => false
  | a :: as, b :: bs => a == b && isUnder as bs

/-- An entry matched by `root.rglob(name)`: strictly below `root` (the pattern
is `**/name`, i.e. zero or more directories then `name`), with final component
`name`; pathlib's glob does not test the entry kind, so directories named
`name` match as well. -/
def matchesMarker (root : List String) (name : String) (e : FSEntry) : Bool :=
  isUnder root e.path && decide (root.length < e.path.length)
    && (e.path.getLast? == some name)

/-- `self.path.rglob(tcl_name)`: all matching entries, in enumeration order. -/
def rglobList (fs : FS) (root : List String) (name : String) : List (List String) :=
  (fs.filter (matchesMarker root name)).map FSEntry.path

/-- Python `str.__lt__` on character sequences: strict lexicographic
comparison by Unicode code point; a proper prefix compares smaller. -/
def charListLt (a b : List Char) : Bool :=
  match a, b with
  | [], [] => false
  | [], _ :: _ => true
  | _ :: _, [] => false
  | c :: cs, d :: ds =>
      if c.toNat < d.toNat then true
      else if d.toNat < c.toNat then false
      else charListLt cs ds

/-- Python `str.__lt__`: code-point lexicographic comparison. -/
def strLt (a b : String) : Bool :=
  charListLt a.data b.data

/-- `pathlib` path ordering (CPython >= 3.12 `PurePath.__lt__`), in its
non-strict form: lexicographic comparison of the case-normalized component
sequences (on POSIX, the components themselves, compared as Python strings,
i.e. by code point). -/
def pathLe (p q : List String) : Bool :=
  match p, q with
  | [], _ => true
  | _ :: _, [] => false
  | a :: as, b :: bs => if strLt a b then true else if strLt b a then false else pathLe as bs

/-- Stable insertion used by `sortPaths`. -/
def insertPath (p : List String) (l : List (List String)) : List (List String) :=
  match l with
  | [] => [p]
  | q :: qs => if pathLe p q then p :: q :: qs else q :: insertPath p qs

/-- Python's `sorted` on paths: a stable sort by the path order. (Insertion
sort, which is stable and sorts; on the duplicate-free listings produced by a
real filesystem this is the unique sorted permutation, which is what CPython's
stable sort returns as well.) -/
def sortPaths (l : List (List String)) : List (List String) :=
  match l with
  | [] => []
  | p :: ps => insertPath p (sortPaths ps)

/-- `str(path)` for a resolved absolute POSIX path. -/
def pathStr (p : List String) : String :=
  "/" ++ String.intercalate "/" p

/-- `Path.name`: the final component ("" for the filesystem root). -/
def pathName (p : List String) : String :=
  (p.getLast?).getD ""

/-! ## Data model: `SlurmDefaults`, `Run`, `Model` -/

/-- `SlurmDefaults` (`core/model.py`): default SLURM/OpenSees execution
settings for all Runs in a Model. Frozen dataclass; field defaults as in the
source. -/
structure SlurmDefaults where
  number_of_nodes : Int := 1
  max_nodes : Int := 18
  max_tasks_per_node : Int := 32
  opensees_exe : String := "/mnt/nfshare/bin/openseesmp-26062025"
  archive_destination : String := "/mnt/krakenschest/home/nmorabowen"
  verbose : Bool := false
deriving DecidableEq, Repr

/-- Modelled from the spec: the `Run` collaborator (`Ladruno/engine/run.py`,
a file not present under `src/`). Per the spec's data model, a Run Unit's
attributes as seen by the core are "a folder path, and the subset of Default
Configuration values it was constructed with"; the constructor arguments are
exactly those passed by `Model._make_run`, and the folder path is exposed as
the `path` attribute read by `Model._auto_job_name` and
`Model._print_run_progress`. (The source stores the path as a string; paths
here are component lists, with `pathStr` giving the rendered form; the
string/`Path` round trip on a resolved absolute path is the identity.) -/
structure Run where
  path : List String
  number_of_nodes : Int
  max_nodes : Int
  max_tasks_per_node : Int
  verbose : Bool
  opensees_exe : String
  archive_destination : String
deriving DecidableEq, Repr

/-- `Model._make_run`: factory for `Run` with shared defaults. -/
def makeRun (d : SlurmDefaults) (run_folder : List String) : Run :=
  { path := run_folder
    number_of_nodes := d.number_of_nodes
    max_nodes := d.max_nodes
    max_tasks_per_node := d.max_tasks_per_node
    verbose := d.verbose
    opensees_exe := d.opensees_exe
    archive_destination := d.archive_destination }

/-- `Model._collect_runs`: if `self.path / tcl_name` exists, only the root
run; else one `Run` per parent of each sorted recursive match of `tcl_name`.
`self.path` and `self.defaults` are passed explicitly. -/
def collectRuns (fs : FS) (path : List String) (defaults : SlurmDefaults)
    (tcl_name : String) : List Run :=
  if pexists fs (path ++ [tcl_name]) then [makeRun defaults path]
  else (sortPaths (rglobList fs path tcl_name)).map
    (fun tcl_path => makeRun defaults tcl_path.dropLast)

/-- `Model`: resolved root path, defaults, and the discovered runs. -/
structure Model where
  path : List String
  defaults : SlurmDefaults
  runs : List Run
deriving DecidableEq, Repr

/-- The `FileNotFoundError` raised by `Model.__init__` when no `main.tcl` is
found under the root. -/
inductive ModelError where
  | noRunsFound : List String → ModelError
deriving DecidableEq, Repr

/-- `Model.__init__`: resolve the path (the root is taken here already in
resolved absolute form, as component list), collect the runs with the fixed
marker name `"main.tcl"`, and fail when none are found. -/
def mkModel (fs : FS) (path : List String)
    (defaults : SlurmDefaults := {}) : Except ModelError Model :=
  let runs := collectRuns fs path defaults "main.tcl"
  if runs.isEmpty then .error (.noRunsFound path)
  else .ok { path := path, defaults := defaults, runs := runs }

/-! ## Job-name derivation -/

/-- `PurePath.relative_to`: the components of `p` relative to `root`, or
`none` when `p` is not at or below `root` (pathlib raises `ValueError`).
`Path("x").relative_to(Path("x"))` is `Path(".")`, whose `parts` tuple is
empty, hence the empty component list in that case. -/
def relativeTo (p root : List String) : Option (List String) :=
  if isUnder root p then some (p.drop root.length) else none

/-- `Model._auto_job_name`: the run folder's path relative to the model root
(the run path, already resolved, is unchanged by `resolve()`), components
joined by `"_"`; `name or self.path.name` falls back to the root's own name
exactly when the joined string is empty (`or` takes the right operand on the
falsy `""`). `none` when `relative_to` raises. -/
def autoJobName (root run_path : List String) : Option String :=
  (relativeTo run_path root).map (fun rel =>
    let name := String.intercalate "_" rel
    if name = "" then pathName root else name)

/-! ## Submission orchestration -/

/-- The keyword arguments of `Model.submit`, with their source defaults. -/
structure SubmitParams where
  archive : Bool := false
  fix : Bool := true
  rebuild : Bool := true
  job_name : Option String := none
  nodes : Option Int := none
  ntasks : Option Int := none
  ntasks_per_node : Option Int := none
  exclude : Option (List String) := none
  tcl_file : String := "main.tcl"
  monitor_ram : Bool := false
  monitor_interval : Int := 30
  log_file : String := "memtrack_node.txt"
deriving DecidableEq, Repr

/-- The arguments actually forwarded to `Run.submit`: the `Model.submit`
keyword arguments with the job name resolved to a concrete string. -/
structure RunArgs where
  archive : Bool
  fix : Bool
  rebuild : Bool
  job_name : String
  nodes : Option Int
  ntasks : Option Int
  ntasks_per_node : Option Int
  exclude : Option (List String)
  tcl_file : String
  monitor_ram : Bool
  monitor_interval : Int
  log_file : String
deriving DecidableEq, Repr

/-- The argument record built by the `run.submit(...)` call site in
`Model.submit`, given the resolved job name. -/
def mkRunArgs (p : SubmitParams) (resolved_job_name : String) : RunArgs :=
  { archive := p.archive
    fix := p.fix
    rebuild := p.rebuild
    job_name := resolved_job_name
    nodes := p.nodes
    ntasks := p.ntasks
    ntasks_per_node := p.ntasks_per_node
    exclude := p.exclude
    tcl_file := p.tcl_file
    monitor_ram := p.monitor_ram
    monitor_interval := p.monitor_interval
    log_file := p.log_file }

/-- An exception escaping `Model.submit`: either a failure raised by a run's
submission operation (propagated unmodified, carried in `runFailure`), or the
`ValueError` raised by `relative_to` inside `_auto_job_name` when a run's
folder is not below the model root (impossible for discovered runs). -/
inductive SubmitExc (ε : Type) where
  | runFailure : ε → SubmitExc ε
  | valueError : SubmitExc ε
deriving DecidableEq, Repr

/-- `job_name or self._auto_job_name(run)`: Python's `or` takes the left
operand when it is truthy (a string is truthy exactly when non-empty) and
only otherwise evaluates `_auto_job_name`. -/
def resolveName (ε : Type) (root : List String) (job_name : Option String)
    (r : Run) : Except (SubmitExc ε) String :=
  match job_name with
  | some n =>
      if n = "" then
        match autoJobName root r.path with
        | some s => .ok s
        | none => .error .valueError
      else .ok n
  | none =>
      match autoJobName root r.path with
      | some s => .ok s
      | none => .error .valueError

/-- Everything observable about one `Model.submit` call: the returned value
(or the exception it raises), the sequence of `Run.submit` invocations it
performed (each with the argument record forwarded to it), in order, and the
lines it printed. -/
structure SubmitOutcome (ε : Type) where
  result : Except (SubmitExc ε) (List String)
  calls : List (Run × RunArgs)
  output : List String
deriving Repr

/-- The `for idx, run in enumerate(self.runs, start=1)` loop of
`Model.submit`, over the remaining runs `rs`, with `i` the 1-based index of
the first of them and `total = len(self.runs)`. `f` is the external
`Run.submit` operation. The loop stops at the first exception (from name
resolution or from `f`), which propagates; otherwise each returned job id is
appended in order. -/
def submitFrom {ε : Type} (root : List String) (verbose : Bool)
    (f : Run → RunArgs → Except ε String) (p : SubmitParams) (total : Nat) :
    Nat → List Run → SubmitOutcome ε
  | _, [] => { result := .ok [], calls := [], output := [] }
  | i, r :: rs =>
      let ps := pathStr r.path
      let progress := if verbose then [s!"[{i}/{total}] {ps}"] else []
      match resolveName ε root p.job_name r with
      | .error e => { result := .error e, calls := [], output := progress }
      | .ok name =>
          let args := mkRunArgs p name
          match f r args with
          | .error e =>
              { result := .error (.runFailure e)
                calls := [(r, args)]
                output := progress }
          | .ok job_id =>
              let rest := submitFrom root verbose f p total (i + 1) rs
              { result := rest.result.map (fun ids => job_id :: ids)
                calls := (r, args) :: rest.calls
                output := progress ++ rest.output }

/-- `Model.submit`: print the header, submit all runs in discovery order, and
print the footer only when the loop completes (an exception propagates before
`_print_footer` runs). The header, progress and footer lines are printed only
when `self.defaults.verbose` is set (`_print_header`, `_print_run_progress`,
`_print_footer`); decorative glyphs of the console text are elided. -/
def Model.submit {ε : Type} (m : Model) (f : Run → RunArgs → Except ε String)
    (p : SubmitParams) : SubmitOutcome ε :=
  let n := m.runs.length
  let header := if m.defaults.verbose then [s!"Submitting {n} model(s)"] else []
  let loop := submitFrom m.path m.defaults.verbose f p n 1 m.runs
  match loop.result with
  | .ok ids =>
      let k := ids.length
      let footer :=
        if m.defaults.verbose then
          [s!"{k} job(s) submitted", "LARGA VIDA AL LADRUNO!!!"]
        else []
      { result := .ok ids, calls := loop.calls, output := header ++ loop.output ++ footer }
  | .error e =>
      { result := .error e, calls := loop.calls, output := header ++ loop.output }

/-! ## Statement vocabulary

Closed forms used in theorem statements to describe what `Model.submit`
forwards; the theorems below prove that the embedded code agrees with them. -/

/-- The job name `Model.submit` resolves for a run when no exception occurs:
the caller's override when truthy, otherwise the derived name of
`_auto_job_name`. -/
def resolvedName (root : List String) (job_name : Option String) (r : Run) : String :=
  match job_name with
  | some n => if n = "" then (autoJobName root r.path).getD (pathName root) else n
  | none => (autoJobName root r.path).getD (pathName root)

/-- The full argument record `Model.submit` forwards to a run's submission. -/
def forwardedArgs (root : List String) (p : SubmitParams) (r : Run) : RunArgs :=
  mkRunArgs p (resolvedName root p.job_name r)

/-! ## Concrete fixture filesystems -/

/-- A root that directly contains the marker file. -/
def fsSingle : FS :=
  [⟨["r"], .dir⟩, ⟨["r", "main.tcl"], .file⟩]

/-- A root with two sibling run folders `x` and `y` (no direct marker). -/
def fsTwo : FS :=
  [⟨["r"], .dir⟩,
   ⟨["r", "y"], .dir⟩, ⟨["r", "y", "main.tcl"], .file⟩,
   ⟨["r", "x"], .dir⟩, ⟨["r", "x", "main.tcl"], .file⟩]

/-- A root with two nested run folders: `r/a` and `r/a/b` both contain the
marker, and the root does not. -/
def fsNested : FS :=
  [⟨["r"], .dir⟩, ⟨["r", "a"], .dir⟩, ⟨["r", "a", "main.tcl"], .file⟩,
   ⟨["r", "a", "b"], .dir⟩, ⟨["r", "a", "b", "main.tcl"], .file⟩]

/-- A root whose direct `main.tcl` is a directory, not a regular file. -/
def fsDirMarker : FS :=
  [⟨["r"], .dir⟩, ⟨["r", "main.tcl"], .dir⟩]

/-- A root with no direct marker and a directory named `main.tcl` deeper. -/
def fsDirNested : FS :=
  [⟨["r"], .dir⟩, ⟨["r", "x"], .dir⟩, ⟨["r", "x", "main.tcl"], .dir⟩]

/-- A root containing no entry named `main.tcl` at all. -/
def fsBare : FS :=
  [⟨["r"], .dir⟩, ⟨["r", "x"], .dir⟩, ⟨["r", "x", "other.tcl"], .file⟩]

/-- The entries of `fsNested` in a different enumeration order. -/
def fsNestedPerm : FS :=
  [⟨["r", "a", "b", "main.tcl"], .file⟩, ⟨["r", "a", "b"], .dir⟩,
   ⟨["r", "a", "main.tcl"], .file⟩, ⟨["r", "a"], .dir⟩, ⟨["r"], .dir⟩]

/-- A root with a direct marker and a further marker deeper in the subtree. -/
def fsRootDeep : FS :=
  [⟨["r"], .dir⟩, ⟨["r", "main.tcl"], .file⟩,
   ⟨["r", "sub"], .dir⟩, ⟨["r", "sub", "main.tcl"], .file⟩]

/-- The model discovered from `fsSingle`. -/
def mSingle : Model := ⟨["r"], {}, [makeRun {} ["r"]]⟩

/-- The model discovered from `fsTwo` (runs sorted: `x` before `y`). -/
def mTwo : Model := ⟨["r"], {}, [makeRun {} ["r", "x"], makeRun {} ["r", "y"]]⟩

/-- A submission stub returning the forwarded job name as the job id. -/
def fJobName (ε : Type) : Run → RunArgs → Except ε String :=
  fun _ a => .ok a.job_name

/-- The success values of `fJobName`. -/
def gJobName : Run → RunArgs → String :=
  fun _ a => a.job_name

/-- A submission stub that always succeeds with a constant id. -/
def fConstId : Run → RunArgs → Except Unit String :=
  fun _ _ => .ok "1"

/-- A submission stub failing exactly on the run folder `r/y`. -/
def fFailY : Run → RunArgs → Except String String :=
  fun r _ => if r.path = ["r", "y"] then .error "boom" else .ok "id0"

/-! ## Order facts about the embedded comparisons -/

theorem Char.toNat_inj {c d : Char} (h : c.toNat = d.toNat) : c = d := by
  have := congrArg Char.ofNat h
  rwa [Char.ofNat_toNat, Char.ofNat_toNat] at this

theorem charListLt_irrefl (l : List Char) : charListLt l l = false := by
  induction l with
  | nil => rfl
  | cons c cs ih => simp [charListLt, Nat.lt_irrefl, ih]

theorem charListLt_connex {a b : List Char} (h₁ : charListLt a b = false)
    (h₂ : charListLt b a = false) : a = b := by
  induction a generalizing b with
  | nil =>
    cases b with
    | nil => rfl
    | cons d ds => simp [charListLt] at h₁
  | cons c cs ih =>
    cases b with
    | nil => simp [charListLt] at h₂
    | cons d ds =>
      rcases Nat.lt_trichotomy c.toNat d.toNat with hlt | heq | hgt
      · simp [charListLt, hlt] at h₁
      · have hcd : c = d := Char.toNat_inj heq
        subst hcd
        simp only [charListLt, Nat.lt_irrefl, if_false] at h₁ h₂
        rw [ih h₁ h₂]
      · simp [charListLt, hgt, Nat.lt_asymm hgt] at h₂

theorem charListLt_trans {a b c : List Char} (h₁ : charListLt a b = true)
    (h₂ : charListLt b c = true) : charListLt a c = true := by
  induction a generalizing b c with
  | nil =>
    cases c with
    | nil =>
      cases b with
      | nil => exact h₂
      | cons d ds => simp [charListLt] at h₂
    | cons e es => rfl
  | cons x xs ih =>
    cases b with
    | nil => simp [charListLt] at h₁
    | cons y ys =>
      cases c with
      | nil => simp [charListLt] at h₂
      | cons z zs =>
        rcases Nat.lt_trichotomy x.toNat y.toNat with hxy | hxy | hxy
        · rcases Nat.lt_trichotomy y.toNat z.toNat with hyz | hyz | hyz
          · simp [charListLt, Nat.lt_trans hxy hyz]
          · simp [charListLt, hyz ▸ hxy]
          · simp [charListLt, hyz, Nat.lt_asymm hyz] at h₂
        · rcases Nat.lt_trichotomy y.toNat z.toNat with hyz | hyz | hyz
          · simp [charListLt, hxy ▸ hyz]
          · have hx : x = y := Char.toNat_inj hxy
            have hy : y = z := Char.toNat_inj hyz
            subst hx; subst hy
            simp only [charListLt, Nat.lt_irrefl, if_false] at h₁ h₂ ⊢
            exact ih h₁ h₂
          · simp [charListLt, hyz, Nat.lt_asymm hyz] at h₂
        · simp [charListLt, hxy, Nat.lt_asymm hxy] at h₁

theorem strLt_irrefl (s : String) : strLt s s = false :=
  charListLt_irrefl s.data

theorem strLt_connex {a b : String} (h₁ : strLt a b = false)
    (h₂ : strLt b a = false) : a = b :=
  String.ext (charListLt_connex h₁ h₂)

theorem strLt_trans {a b c : String} (h₁ : strLt a b = true)
    (h₂ : strLt b c = true) : strLt a c = true :=
  charListLt_trans h₁ h₂

theorem strLt_asymm {a b : String} (h : strLt a b = true) : strLt b a = false := by
  by_contra hc
  have hba : strLt b a = true := by
    cases hx : strLt b a with
    | false => exact absurd hx hc
    | true => rfl
  have := strLt_trans h hba
  rw [strLt_irrefl] at this
  exact absurd this (by simp)

theorem pathLe_cons_iff {a b : String} {as bs : List String} :
    pathLe (a :: as) (b :: bs) = true
      ↔ strLt a b = true ∨ (a = b ∧ pathLe as bs = true) := by
  constructor
  · intro h
    by_cases hab : strLt a b = true
    · exact Or.inl hab
    · have hab' : strLt a b = false := by
        cases hx : strLt a b with
        | false => rfl
        | true => exact absurd hx hab
      by_cases hba : strLt b a = true
      · simp [pathLe, hab', hba] at h
      · have hba' : strLt b a = false := by
          cases hx : strLt b a with
          | false => rfl
          | true => exact absurd hx hba
        refine Or.inr ⟨strLt_connex hab' hba', ?_⟩
        simpa [pathLe, hab', hba'] using h
  · rintro (hab | ⟨hab, hrest⟩)
    · simp [pathLe, hab]
    · subst hab
      simp [pathLe, strLt_irrefl, hrest]

theorem pathLe_total (p q : List String) : pathLe p q = true ∨ pathLe q p = true := by
  induction p generalizing q with
  | nil => exact Or.inl rfl
  | cons a as ih =>
    cases q with
    | nil => exact Or.inr rfl
    | cons b bs =>
      by_cases hab : strLt a b = true
      · exact Or.inl (pathLe_cons_iff.mpr (Or.inl hab))
      · have hab' : strLt a b = false := by
          cases hx : strLt a b with
          | false => rfl
          | true => exact absurd hx hab
        by_cases hba : strLt b a = true
        · exact Or.inr (pathLe_cons_iff.mpr (Or.inl hba))
        · have hba' : strLt b a = false := by
            cases hx : strLt b a with
            | false => rfl
            | true => exact absurd hx hba
          have heq : a = b := strLt_connex hab' hba'
          subst heq
          rcases ih bs with h | h
          · exact Or.inl (pathLe_cons_iff.mpr (Or.inr ⟨rfl, h⟩))
          · exact Or.inr (pathLe_cons_iff.mpr (Or.inr ⟨rfl, h⟩))

theorem pathLe_not_le (p q : List String) (h : pathLe p q = false) : pathLe q p = true := by
  rcases pathLe_total p q with h' | h'
  · rw [h'] at h; exact absurd h (by simp)
  · exact h'

theorem pathLe_antisymm {p q : List String} (h₁ : pathLe p q = true)
    (h₂ : pathLe q p = true) : p = q := by
  induction p generalizing q with
  | nil =>
    cases q with
    | nil => rfl
    | cons b bs => simp [pathLe] at h₂
  | cons a as ih =>
    cases q with
    | nil => simp [pathLe] at h₁
    | cons b bs =>
      rcases pathLe_cons_iff.mp h₁ with hab | ⟨hab, hr₁⟩
      · rcases pathLe_cons_iff.mp h₂ with hba | ⟨hba, _⟩
        · rw [strLt_asymm hab] at hba
          exact absurd hba (by simp)
        · subst hba
          rw [strLt_irrefl] at hab
          exact absurd hab (by simp)
      · subst hab
        rcases pathLe_cons_iff.mp h₂ with hba | ⟨_, hr₂⟩
        · rw [strLt_irrefl] at hba
          exact absurd hba (by simp)
        · rw [ih hr₁ hr₂]

theorem pathLe_trans {p q r : List String} (h₁ : pathLe p q = true)
    (h₂ : pathLe q r = true) : pathLe p r = true := by
  induction p generalizing q r with
  | nil => rfl
  | cons a as ih =>
    cases q with
    | nil => simp [pathLe] at h₁
    | cons b bs =>
      cases r with
      | nil => simp [pathLe] at h₂
      | cons c cs =>
        rcases pathLe_cons_iff.mp h₁ with hab | ⟨hab, hr₁⟩
        · rcases pathLe_cons_iff.mp h₂ with hbc | ⟨hbc, _⟩
          · exact pathLe_cons_iff.mpr (Or.inl (strLt_trans hab hbc))
          · subst hbc
            exact pathLe_cons_iff.mpr (Or.inl hab)
        · subst hab
          rcases pathLe_cons_iff.mp h₂ with hbc | ⟨hbc, hr₂⟩
          · exact pathLe_cons_iff.mpr (Or.inl hbc)
          · subst hbc
            exact pathLe_cons_iff.mpr (Or.inr ⟨rfl, ih hr₁ hr₂⟩)

/-! ## Sorting lemmas -/

theorem insertPath_perm (p : List String) (l : List (List String)) :
    List.Perm (insertPath p l) (p :: l) := by
  induction l with
  | nil => exact List.Perm.refl _
  | cons q qs ih =>
    by_cases h : pathLe p q = true
    · simp [insertPath, h]
    · have h' : pathLe p q = false := by
        cases hx : pathLe p q with
        | false => rfl
        | true => exact absurd hx h
      simp only [insertPath, h', if_false]
      exact (ih.cons q).trans (List.Perm.swap p q qs)

theorem sortPaths_perm (l : List (List String)) : List.Perm (sortPaths l) l := by
  induction l with
  | nil => exact List.Perm.refl _
  | cons p ps ih => exact (insertPath_perm p (sortPaths ps)).trans (ih.cons p)

theorem mem_insertPath {x p : List String} {l : List (List String)} :
    x ∈ insertPath p l ↔ x = p ∨ x ∈ l := by
  rw [(insertPath_perm p l).mem_iff]
  simp

theorem insertPath_pairwise {p : List String} {l : List (List String)}
    (h : List.Pairwise (fun a b => pathLe a b = true) l) :
    List.Pairwise (fun a b => pathLe a b = true) (insertPath p l) := by
  induction l with
  | nil => simp [insertPath]
  | cons q qs ih =>
    rcases List.pairwise_cons.mp h with ⟨hq, hqs⟩
    by_cases hle : pathLe p q = true
    · simp only [insertPath, hle, if_true]
      refine List.pairwise_cons.mpr ⟨?_, h⟩
      intro a ha
      rcases List.mem_cons.mp ha with rfl | ha
      · exact hle
      · exact pathLe_trans hle (hq a ha)
    · have hle' : pathLe p q = false := by
        cases hx : pathLe p q with
        | false => rfl
        | true => exact absurd hx hle
      simp only [insertPath, hle', if_false]
      refine List.pairwise_cons.mpr ⟨?_, ih hqs⟩
      intro a ha
      rcases mem_insertPath.mp ha with rfl | ha
      · exact pathLe_not_le _ _ hle'
      · exact hq a ha

theorem sortPaths_pairwise (l : List (List String)) :
    List.Pairwise (fun a b => pathLe a b = true) (sortPaths l) := by
  induction l with
  | nil => exact List.Pairwise.nil
  | cons p ps ih => exact insertPath_pairwise ih

/-- Python's `sorted` is insensitive to the input enumeration order: any two
permutations of the same duplicate-free path list sort to the same list (here
even without duplicate-freeness, since equal paths are equal list elements). -/
theorem sortPaths_eq_of_perm {l₁ l₂ : List (List String)} (h : List.Perm l₁ l₂) :
    sortPaths l₁ = sortPaths l₂ := by
  haveI : IsAntisymm (List String) (fun a b => pathLe a b = true) :=
    ⟨fun _ _ h₁ h₂ => pathLe_antisymm h₁ h₂⟩
  exact List.eq_of_perm_of_sorted
    ((sortPaths_perm l₁).trans (h.trans (sortPaths_perm l₂).symm))
    (sortPaths_pairwise l₁) (sortPaths_pairwise l₂)

/-! ## Path and filesystem lemmas -/

theorem isUnder_append (root rel : List String) : isUnder root (root ++ rel) = true := by
  induction root with
  | nil => rfl
  | cons a as ih => simpa [isUnder] using ih

theorem isUnder_refl (p : List String) : isUnder p p = true := by
  simpa using isUnder_append p []

theorem eq_append_drop_of_isUnder {root p : List String} (h : isUnder root p = true) :
    p = root ++ p.drop root.length := by
  induction root generalizing p with
  | nil => simp
  | cons a as ih =>
    cases p with
    | nil => simp [isUnder] at h
    | cons b bs =>
      simp only [isUnder, Bool.and_eq_true, beq_iff_eq] at h
      rcases h with ⟨hab, hu⟩
      subst hab
      simpa using ih hu

theorem length_le_of_isUnder {root p : List String} (h : isUnder root p = true) :
    root.length ≤ p.length := by
  conv_rhs => rw [eq_append_drop_of_isUnder h]
  simp

theorem isUnder_dropLast {root p : List String} (h : isUnder root p = true)
    (hlen : root.length < p.length) : isUnder root p.dropLast = true := by
  have hp := eq_append_drop_of_isUnder h
  set rel := p.drop root.length with hrel
  cases hr : rel with
  | nil =>
    rw [hr] at hp
    simp only [List.append_nil] at hp
    rw [hp] at hlen
    exact absurd hlen (Nat.lt_irrefl _)
  | cons x xs =>
    have : p.dropLast = root ++ (x :: xs).dropLast := by
      rw [hp, hr, List.dropLast_append_of_ne_nil]
      simp
    rw [this]
    exact isUnder_append _ _

theorem relativeTo_append (root rel : List String) :
    relativeTo (root ++ rel) root = some rel := by
  simp [relativeTo, isUnder_append, List.drop_left]

theorem pexists_iff {fs : FS} {p : List String} :
    pexists fs p = true ↔ ∃ e ∈ fs, e.path = p := by
  simp [pexists, List.any_eq_true, beq_iff_eq]

theorem pexists_eq_of_perm {fs fs' : FS} (h : List.Perm fs fs') (p : List String) :
    pexists fs p = pexists fs' p := by
  cases hx : pexists fs' p with
  | true =>
    rcases pexists_iff.mp hx with ⟨e, he, hep⟩
    exact pexists_iff.mpr ⟨e, h.mem_iff.mpr he, hep⟩
  | false =>
    cases hy : pexists fs p with
    | false => rfl
    | true =>
      rcases pexists_iff.mp hy with ⟨e, he, hep⟩
      have := pexists_iff.mpr ⟨e, h.mem_iff.mp he, hep⟩
      rw [this] at hx
      exact absurd hx (by decide)

theorem rglobList_perm {fs fs' : FS} (h : List.Perm fs fs') (root : List String) (n : String) :
    List.Perm (rglobList fs root n) (rglobList fs' root n) :=
  (h.filter (matchesMarker root n)).map FSEntry.path

theorem mem_rglobList {fs : FS} {root q : List String} {n : String} :
    q ∈ rglobList fs root n
      ↔ ∃ e ∈ fs, matchesMarker root n e = true ∧ e.path = q := by
  simp only [rglobList, List.mem_map, List.mem_filter]
  constructor
  · rintro ⟨e, ⟨he, hm⟩, hp⟩
    exact ⟨e, he, hm, hp⟩
  · rintro ⟨e, he, hm, hp⟩
    exact ⟨e, ⟨he, hm⟩, hp⟩

/-! ## Discovery lemmas -/

theorem matchesMarker_iff {root : List String} {n : String} {e : FSEntry} :
    matchesMarker root n e = true
      ↔ isUnder root e.path = true ∧ root.length < e.path.length
          ∧ e.path.getLast? = some n := by
  simp [matchesMarker, Bool.and_eq_true, decide_eq_true_eq, and_assoc]

theorem collectRuns_root_marker {fs : FS} {root : List String} {n : String}
    (d : SlurmDefaults) (h : pexists fs (root ++ [n]) = true) :
    collectRuns fs root d n = [makeRun d root] := by
  simp [collectRuns, h]

theorem marker_mem_rglobList {fs : FS} {root : List String} {n : String}
    (h : pexists fs (root ++ [n]) = true) :
    (root ++ [n]) ∈ rglobList fs root n := by
  rcases pexists_iff.mp h with ⟨e, he, hp⟩
  refine mem_rglobList.mpr ⟨e, he, ?_, hp⟩
  refine matchesMarker_iff.mpr ⟨?_, ?_, ?_⟩
  · rw [hp]; exact isUnder_append _ _
  · rw [hp]; simp
  · rw [hp]; exact List.getLast?_concat _

theorem pexists_eq_false_of_rglob_nil {fs : FS} {root : List String} {n : String}
    (h : rglobList fs root n = []) : pexists fs (root ++ [n]) = false := by
  cases hx : pexists fs (root ++ [n]) with
  | false => rfl
  | true =>
    have := marker_mem_rglobList hx
    rw [h] at this
    exact absurd this (List.not_mem_nil _)

theorem collectRuns_eq_of_perm {fs fs' : FS} (h : List.Perm fs fs')
    (root : List String) (d : SlurmDefaults) (n : String) :
    collectRuns fs root d n = collectRuns fs' root d n := by
  unfold collectRuns
  rw [pexists_eq_of_perm h, sortPaths_eq_of_perm (rglobList_perm h root n)]

theorem isUnder_of_mem_collectRuns {fs : FS} {root : List String}
    {d : SlurmDefaults} {n : String} {r : Run}
    (hr : r ∈ collectRuns fs root d n) : isUnder root r.path = true := by
  unfold collectRuns at hr
  by_cases hp : pexists fs (root ++ [n]) = true
  · rw [if_pos hp] at hr
    rcases List.mem_singleton.mp hr with rfl
    exact isUnder_refl root
  · rw [if_neg hp] at hr
    rcases List.mem_map.mp hr with ⟨q, hq, rfl⟩
    have hq' : q ∈ rglobList fs root n := (sortPaths_perm _).mem_iff.mp hq
    rcases mem_rglobList.mp hq' with ⟨e, _, hm, hep⟩
    rcases matchesMarker_iff.mp hm with ⟨hu, hlen, _⟩
    rw [hep] at hu hlen
    exact isUnder_dropLast hu hlen

theorem mkModel_ok {fs : FS} {root : List String} {d : SlurmDefaults} {m : Model}
    (h : mkModel fs root d = .ok m) :
    m.path = root ∧ m.defaults = d
      ∧ m.runs = collectRuns fs root d "main.tcl" ∧ m.runs ≠ [] := by
  unfold mkModel at h
  by_cases he : (collectRuns fs root d "main.tcl").isEmpty = true
  · rw [if_pos he] at h
    exact absurd h (by simp)
  · rw [if_neg he] at h
    have hm : m = ⟨root, d, collectRuns fs root d "main.tcl"⟩ :=
      (Except.ok.inj h).symm
    subst hm
    refine ⟨rfl, rfl, rfl, ?_⟩
    simpa using he

/-! ## Job-name lemmas -/

theorem intercalate_go_length (s : String) (xs : List String) :
    ∀ acc : String, acc.length ≤ (String.intercalate.go acc s xs).length := by
  induction xs with
  | nil => intro acc; exact Nat.le_refl _
  | cons a as ih =>
    intro acc
    have h1 : acc.length ≤ (acc ++ s ++ a).length := by
      simp only [String.length_append]
      omega
    exact Nat.le_trans h1 (ih (acc ++ s ++ a))

theorem intercalate_ne_empty {x : String} (xs : List String) (hx : x ≠ "") :
    String.intercalate "_" (x :: xs) ≠ "" := by
  intro hcontra
  have h1 : x.length ≤ (String.intercalate "_" (x :: xs)).length :=
    intercalate_go_length "_" xs x
  rw [hcontra] at h1
  have hz : x.length = 0 := Nat.le_zero.mp h1
  have hdata : x.data = [] := List.length_eq_zero.mp hz
  exact hx (String.ext hdata)

theorem autoJobName_isUnder {root q : List String} (h : isUnder root q = true) :
    autoJobName root q = some (let name := String.intercalate "_" (q.drop root.length)
      if name = "" then pathName root else name) := by
  simp [autoJobName, relativeTo, h]

/-! ## Submission lemmas -/

theorem resolveName_ok (ε : Type) {root : List String} (jn : Option String) {r : Run}
    (h : isUnder root r.path = true) :
    resolveName ε root jn r = .ok (resolvedName root jn r) := by
  have ha := autoJobName_isUnder h
  cases jn with
  | none => simp [resolveName, resolvedName, ha]
  | some n =>
    by_cases hn : n = ""
    · subst hn; simp [resolveName, resolvedName, ha]
    · simp [resolveName, resolvedName, hn]

theorem resolveName_path_eq (ε : Type) (root : List String) (jn : Option String)
    {r₁ r₂ : Run} (h : r₁.path = r₂.path) :
    resolveName ε root jn r₁ = resolveName ε root jn r₂ := by
  unfold resolveName
  rw [h]

theorem submit_result_eq {ε : Type} (m : Model) (f : Run → RunArgs → Except ε String)
    (p : SubmitParams) :
    (Model.submit m f p).result
      = (submitFrom m.path m.defaults.verbose f p m.runs.length 1 m.runs).result := by
  unfold Model.submit
  cases h : (submitFrom m.path m.defaults.verbose f p m.runs.length 1 m.runs).result
    <;> simp [h]

theorem submit_calls_eq {ε : Type} (m : Model) (f : Run → RunArgs → Except ε String)
    (p : SubmitParams) :
    (Model.submit m f p).calls
      = (submitFrom m.path m.defaults.verbose f p m.runs.length 1 m.runs).calls := by
  unfold Model.submit
  cases h : (submitFrom m.path m.defaults.verbose f p m.runs.length 1 m.runs).result
    <;> simp [h]

theorem submitFrom_ok {ε : Type} (root : List String) (v : Bool)
    (f : Run → RunArgs → Except ε String) (g : Run → RunArgs → String)
    (p : SubmitParams) (total : Nat)
    (hf : ∀ r a, f r a = .ok (g r a)) :
    ∀ (i : Nat) (rs : List Run), (∀ r ∈ rs, isUnder root r.path = true) →
      (submitFrom root v f p total i rs).result
          = .ok (rs.map fun r => g r (forwardedArgs root p r)) ∧
      (submitFrom root v f p total i rs).calls
          = rs.map fun r => (r, forwardedArgs root p r) := by
  intro i rs
  induction rs generalizing i with
  | nil => intro _; exact ⟨rfl, rfl⟩
  | cons r rs ih =>
    intro hu
    have hur : isUnder root r.path = true := hu r (List.mem_cons_self r rs)
    have hres := resolveName_ok ε p.job_name hur
    rcases ih (i + 1) (fun x hx => hu x (List.mem_cons_of_mem _ hx)) with ⟨h1, h2⟩
    simp only [submitFrom, hres, hf r _, h1, h2, List.map_cons, forwardedArgs, Except.map]
    exact ⟨trivial, trivial⟩

theorem submitFrom_err {ε : Type} (root : List String) (v : Bool)
    (f : Run → RunArgs → Except ε String) (p : SubmitParams) (total : Nat)
    (e : ε) :
    ∀ (rs : List Run) (j : Nat) (hj : j < rs.length) (i : Nat),
      (∀ r ∈ rs, isUnder root r.path = true) →
      (∀ k, (hk : k < j) → ∃ s, f (rs.get ⟨k, Nat.lt_trans hk hj⟩)
          (forwardedArgs root p (rs.get ⟨k, Nat.lt_trans hk hj⟩)) = .ok s) →
      f (rs.get ⟨j, hj⟩) (forwardedArgs root p (rs.get ⟨j, hj⟩)) = .error e →
      (submitFrom root v f p total i rs).result = .error (.runFailure e) ∧
      (submitFrom root v f p total i rs).calls
          = (rs.take (j + 1)).map fun r => (r, forwardedArgs root p r) := by
  intro rs
  induction rs with
  | nil =>
    intro j hj
    exact absurd hj (Nat.not_lt_zero j)
  | cons r rs ih =>
    intro j hj i hu hok he
    have hur : isUnder root r.path = true := hu r (List.mem_cons_self r rs)
    have hres := resolveName_ok ε p.job_name hur
    cases j with
    | zero =>
      have he' : f r (mkRunArgs p (resolvedName root p.job_name r)) = .error e := he
      simp only [submitFrom, hres, he', List.take_succ_cons, List.take_zero,
        List.map_cons, List.map_nil, forwardedArgs]
      refine ⟨?_, ?_⟩ <;> trivial
    | succ j' =>
      rcases hok 0 (Nat.succ_pos j') with ⟨s, hs⟩
      have hs' : f r (mkRunArgs p (resolvedName root p.job_name r)) = .ok s := hs
      have hj' : j' < rs.length := Nat.lt_of_succ_lt_succ hj
      have step := ih j' hj' (i + 1)
        (fun x hx => hu x (List.mem_cons_of_mem _ hx))
        (fun k hk => hok (k + 1) (Nat.succ_lt_succ hk))
        he
      rcases step with ⟨h1, h2⟩
      simp only [submitFrom, hres, hs', h1, h2, Except.map, List.take_succ_cons,
        List.map_cons, forwardedArgs]
      refine ⟨?_, ?_⟩ <;> trivial

theorem submitFrom_calls_spec {ε : Type} (root : List String) (v : Bool)
    (f : Run → RunArgs → Except ε String) (p : SubmitParams) (total : Nat) :
    ∀ (i : Nat) (rs : List Run) (c : Run × RunArgs),
      c ∈ (submitFrom root v f p total i rs).calls →
      ∃ nm, resolveName ε root p.job_name c.1 = .ok nm ∧ c.2 = mkRunArgs p nm := by
  intro i rs
  induction rs generalizing i with
  | nil =>
    intro c hc
    simp [submitFrom] at hc
  | cons r rs ih =>
    intro c hc
    cases hres : resolveName ε root p.job_name r with
    | error err =>
      simp only [submitFrom, hres] at hc
      simp at hc
    | ok name =>
      cases hcall : f r (mkRunArgs p name) with
      | error err =>
        simp only [submitFrom, hres, hcall] at hc
        simp only [List.mem_singleton] at hc
        subst hc
        exact ⟨name, hres, rfl⟩
      | ok jid =>
        simp only [submitFrom, hres, hcall] at hc
        simp only [List.mem_cons] at hc
        rcases hc with rfl | hc
        · exact ⟨name, hres, rfl⟩
        · exact ih (i + 1) c hc

theorem submitFrom_verbose {ε : Type} (root : List String)
    (f : Run → RunArgs → Except ε String) (p : SubmitParams) (total : Nat)
    (b₁ b₂ v₁ v₂ : Bool)
    (hf : ∀ r a b, f { r with verbose := b } a = f r a) :
    ∀ (i : Nat) (rs : List Run),
      ((submitFrom root v₁ f p total i (rs.map fun r => { r with verbose := b₁ })).result
        = (submitFrom root v₂ f p total i (rs.map fun r => { r with verbose := b₂ })).result) ∧
      ((submitFrom root v₁ f p total i
            (rs.map fun r => { r with verbose := b₁ })).calls.map Prod.snd
        = (submitFrom root v₂ f p total i
            (rs.map fun r => { r with verbose := b₂ })).calls.map Prod.snd) := by
  intro i rs
  induction rs generalizing i with
  | nil => exact ⟨rfl, rfl⟩
  | cons r rs ih =>
    have h₁ : resolveName ε root p.job_name { r with verbose := b₁ }
        = resolveName ε root p.job_name r :=
      resolveName_path_eq ε root p.job_name rfl
    have h₂ : resolveName ε root p.job_name { r with verbose := b₂ }
        = resolveName ε root p.job_name r :=
      resolveName_path_eq ε root p.job_name rfl
    have hf₁ : ∀ a, f { r with verbose := b₁ } a = f r a := fun a => hf r a b₁
    have hf₂ : ∀ a, f { r with verbose := b₂ } a = f r a := fun a => hf r a b₂
    rcases ih (i + 1) with ⟨ihr, ihc⟩
    cases hres : resolveName ε root p.job_name r with
    | error err =>
      simp only [List.map_cons, submitFrom, h₁, h₂, hres]
      refine ⟨?_, ?_⟩ <;> trivial
    | ok name =>
      cases hcall : f r (mkRunArgs p name) with
      | error err =>
        simp only [List.map_cons, submitFrom, h₁, h₂, hres, hf₁, hf₂, hcall]
        refine ⟨?_, ?_⟩ <;> trivial
      | ok jid =>
        simp only [List.map_cons, submitFrom, h₁, h₂, hres, hf₁, hf₂, hcall, ihr, ihc]
        refine ⟨?_, ?_⟩ <;> trivial

theorem collectRuns_verbose (fs : FS) (root : List String) (d : SlurmDefaults)
    (n : String) (b : Bool) :
    collectRuns fs root { d with verbose := b } n
      = (collectRuns fs root d n).map fun r => { r with verbose := b } := by
  unfold collectRuns
  by_cases hp : pexists fs (root ++ [n]) = true
  · rw [if_pos hp, if_pos hp]
    simp [makeRun]
  · rw [if_neg hp, if_neg hp]
    simp [makeRun, List.map_map, Function.comp]

theorem resolveName_some_ok {ε : Type} {root : List String} {r : Run} {n nm : String}
    (hne : n ≠ "") (h : resolveName ε root (some n) r = .ok nm) : nm = n := by
  simp only [resolveName, if_neg hne] at h
  exact (Except.ok.inj h).symm

theorem resolveName_none_ok {ε : Type} {root : List String} {r : Run} {nm : String}
    (h : resolveName ε root none r = .ok nm) :
    autoJobName root r.path = some nm := by
  simp only [resolveName] at h
  cases ha : autoJobName root r.path with
  | none => rw [ha] at h; exact absurd h (by simp)
  | some s =>
    rw [ha] at h
    rw [Except.ok.inj h]

theorem resolveName_empty_ok {ε : Type} {root : List String} {r : Run} {nm : String}
    (h : resolveName ε root (some "") r = .ok nm) :
    autoJobName root r.path = some nm := by
  simp only [resolveName, if_pos rfl] at h
  cases ha : autoJobName root r.path with
  | none => rw [ha] at h; exact absurd h (by simp)
  | some s =>
    rw [ha] at h
    rw [Except.ok.inj h]

/-- Shared backbone for the all-success claims: when construction succeeded
and every submission succeeds, `Model.submit` returns exactly the ids of the
runs in discovery order and calls each run once, in order, with the resolved
arguments. -/
theorem submit_all_ok_spec {ε : Type} (fs : FS) (root : List String)
    (d : SlurmDefaults) (m : Model) (f : Run → RunArgs → Except ε String)
    (g : Run → RunArgs → String) (p : SubmitParams)
    (hm : mkModel fs root d = .ok m) (hf : ∀ r a, f r a = .ok (g r a)) :
    (Model.submit m f p).result
        = .ok (m.runs.map fun r => g r (forwardedArgs root p r)) ∧
    (Model.submit m f p).calls
        = m.runs.map fun r => (r, forwardedArgs root p r) := by
  rcases mkModel_ok hm with ⟨hpath, _, hruns, _⟩
  subst hpath
  have hu : ∀ r ∈ m.runs, isUnder m.path r.path = true := by
    intro r hr
    rw [hruns] at hr
    exact isUnder_of_mem_collectRuns hr
  rcases submitFrom_ok m.path m.defaults.verbose f g p m.runs.length hf 1 m.runs hu
    with ⟨h1, h2⟩
  exact ⟨(submit_result_eq m f p).trans h1, (submit_calls_eq m f p).trans h2⟩

/-! ## Claim theorems -/

/-- C1, counterexample: the code sorts the *marker file* paths and then takes
parents, which is not the lexicographic order of the candidate folders' full
path strings. With root `/r`, no direct marker, and markers at
`/r/a/main.tcl` and `/r/a/b/main.tcl`, discovery returns the folders in the
order `[/r/a/b, /r/a]`, although the folder path string `/r/a` compares
strictly smaller than `/r/a/b`. -/
theorem c1_counterexample :
    pexists fsNested (["r"] ++ ["main.tcl"]) = false ∧
    (collectRuns fsNested ["r"] {} "main.tcl").map Run.path
      = [["r", "a", "b"], ["r", "a"]] ∧
    strLt (pathStr ["r", "a"]) (pathStr ["r", "a", "b"]) = true := by
  refine ⟨by decide, by decide, by decide⟩

/-- C1, amended: for every root without a direct marker, discovery yields
exactly one Run Unit per marker occurrence in the subtree, one per marker
file's parent directory, ordered by lexicographic comparison of the *marker
files'* paths (componentwise) — not of the candidate folders' own path
strings — and the result is independent of the filesystem enumeration
order. -/
theorem c1_sorted_by_marker_paths (fs fs' : FS) (root : List String)
    (d : SlurmDefaults) (hperm : List.Perm fs fs')
    (hroot : pexists fs (root ++ ["main.tcl"]) = false) :
    collectRuns fs' root d "main.tcl" = collectRuns fs root d "main.tcl" ∧
    (collectRuns fs root d "main.tcl").length
        = (rglobList fs root "main.tcl").length ∧
    List.Perm ((collectRuns fs root d "main.tcl").map Run.path)
        ((rglobList fs root "main.tcl").map (fun q => q.dropLast)) ∧
    List.Pairwise (fun a b => pathLe a b = true)
        (sortPaths (rglobList fs root "main.tcl")) ∧
    (collectRuns fs root d "main.tcl").map Run.path
        = (sortPaths (rglobList fs root "main.tcl")).map (fun q => q.dropLast) := by
  have hneg : ¬ (pexists fs (root ++ ["main.tcl"]) = true) := by
    rw [hroot]; simp
  have hmap : (collectRuns fs root d "main.tcl").map Run.path
      = (sortPaths (rglobList fs root "main.tcl")).map (fun q => q.dropLast) := by
    unfold collectRuns
    rw [if_neg hneg, List.map_map]
    rfl
  refine ⟨(collectRuns_eq_of_perm hperm root d "main.tcl").symm, ?_, ?_,
    sortPaths_pairwise _, hmap⟩
  · unfold collectRuns
    rw [if_neg hneg, List.length_map, (sortPaths_perm _).length_eq]
  · rw [hmap]
    exact (sortPaths_perm _).map _

/-- C1, witness: the amended theorem applied to the nested fixture and a
permuted enumeration of it. -/
theorem c1_witness :
    collectRuns fsNestedPerm ["r"] {} "main.tcl" = collectRuns fsNested ["r"] {} "main.tcl" ∧
    (collectRuns fsNested ["r"] {} "main.tcl").length
        = (rglobList fsNested ["r"] "main.tcl").length ∧
    List.Perm ((collectRuns fsNested ["r"] {} "main.tcl").map Run.path)
        ((rglobList fsNested ["r"] "main.tcl").map (fun q => q.dropLast)) ∧
    List.Pairwise (fun a b => pathLe a b = true)
        (sortPaths (rglobList fsNested ["r"] "main.tcl")) ∧
    (collectRuns fsNested ["r"] {} "main.tcl").map Run.path
        = (sortPaths (rglobList fsNested ["r"] "main.tcl")).map (fun q => q.dropLast) :=
  c1_sorted_by_marker_paths fsNested fsNestedPerm ["r"] {} (by decide) (by decide)

/-- C2: for every root that directly contains the marker file, Model
construction succeeds with exactly one Run Unit whose folder equals the root
(whatever else, deeper markers included, is in the filesystem). -/
theorem c2_root_is_single_run (fs : FS) (root : List String) (d : SlurmDefaults)
    (h : pexists fs (root ++ ["main.tcl"]) = true) :
    mkModel fs root d = .ok { path := root, defaults := d, runs := [makeRun d root] } := by
  simp [mkModel, collectRuns_root_marker d h]

/-- C2, witness: a root with a direct marker and another marker deeper in the
subtree still yields the single root run. -/
theorem c2_witness :
    mkModel fsRootDeep ["r"] {}
      = .ok { path := ["r"], defaults := {}, runs := [makeRun {} ["r"]] } :=
  c2_root_is_single_run fsRootDeep ["r"] {} (by decide)

/-- C3: when no entry named `main.tcl` exists anywhere below the root,
construction fails with the "no runs found" error; and a constructed Model
never has an empty run sequence. -/
theorem c3_no_runs_fails (fs : FS) (root : List String) (d : SlurmDefaults) :
    (rglobList fs root "main.tcl" = [] →
      mkModel fs root d = .error (.noRunsFound root)) ∧
    (∀ m, mkModel fs root d = .ok m → m.runs ≠ []) := by
  constructor
  · intro h
    have hp : pexists fs (root ++ ["main.tcl"]) = false :=
      pexists_eq_false_of_rglob_nil h
    have hc : collectRuns fs root d "main.tcl" = [] := by
      simp [collectRuns, hp, h, sortPaths]
    simp [mkModel, hc]
  · intro m hm
    exact (mkModel_ok hm).2.2.2

/-- C3, witness: a root with no marker anywhere fails. -/
theorem c3_witness :
    mkModel fsBare ["r"] {} = .error (.noRunsFound ["r"]) :=
  (c3_no_runs_fails fsBare ["r"] {}).1 (by decide)

/-- C4: the derived job name is a pure function of root and run folder: the
relative components joined by underscores, falling back to the root
directory's own name when there are no relative components (real path
components are nonempty). -/
theorem c4_auto_job_name_spec (root rel : List String) (h : ∀ c ∈ rel, c ≠ "") :
    autoJobName root (root ++ rel)
      = some (if rel = [] then pathName root else String.intercalate "_" rel) := by
  have hrel := relativeTo_append root rel
  cases rel with
  | nil =>
    rw [List.append_nil]
    have hr : relativeTo root root = some [] := by
      simpa using relativeTo_append root []
    simp [autoJobName, hr, String.intercalate]
  | cons x xs =>
    have hx : x ≠ "" := h x (List.mem_cons_self x xs)
    have hne := intercalate_ne_empty xs hx
    simp [autoJobName, hrel, hne]

/-- C4, witness: a nested run folder `r/a/b` derives `a_b`; the root itself
derives the root's own name `r`. -/
theorem c4_witness :
    autoJobName ["r"] (["r"] ++ ["a", "b"])
        = some (if (["a", "b"] : List String) = [] then pathName ["r"]
            else String.intercalate "_" ["a", "b"]) ∧
    autoJobName ["r"] (["r"] ++ ([] : List String))
        = some (if ([] : List String) = [] then pathName ["r"]
            else String.intercalate "_" ([] : List String)) :=
  ⟨c4_auto_job_name_spec ["r"] ["a", "b"] (by decide),
   c4_auto_job_name_spec ["r"] [] (by decide)⟩

/-- C5: when construction succeeded and every unit's submission succeeds, the
orchestration call returns exactly one job identifier per discovered Run
Unit, the i-th being the identifier returned by the i-th unit's submission,
and the units are submitted sequentially in discovery order. -/
theorem c5_order_preserving (fs : FS) (root : List String) (d : SlurmDefaults)
    (m : Model) {ε : Type} (f : Run → RunArgs → Except ε String)
    (g : Run → RunArgs → String) (p : SubmitParams)
    (hm : mkModel fs root d = .ok m) (hf : ∀ r a, f r a = .ok (g r a)) :
    (Model.submit m f p).result
        = .ok (m.runs.map fun r => g r (forwardedArgs root p r)) ∧
    (m.runs.map fun r => g r (forwardedArgs root p r)).length = m.runs.length ∧
    (Model.submit m f p).calls
        = m.runs.map fun r => (r, forwardedArgs root p r) := by
  rcases submit_all_ok_spec fs root d m f g p hm hf with ⟨h1, h2⟩
  exact ⟨h1, List.length_map _ _, h2⟩

/-- C5, witness: the two-run fixture, submitted with a stub echoing the job
name, returns the two derived names in discovery order. -/
theorem c5_witness :
    (Model.submit mTwo (fJobName Unit) {}).result
        = .ok (mTwo.runs.map fun r => gJobName r (forwardedArgs ["r"] {} r)) ∧
    (mTwo.runs.map fun r => gJobName r (forwardedArgs ["r"] {} r)).length
        = mTwo.runs.length ∧
    (Model.submit mTwo (fJobName Unit) {}).calls
        = mTwo.runs.map fun r => (r, forwardedArgs ["r"] {} r) :=
  c5_order_preserving fsTwo ["r"] {} mTwo (fJobName Unit) gJobName {} rfl
    (fun _ _ => rfl)

/-- C6: if the j-th unit's submission fails, the failure propagates
unmodified, exactly the first j+1 units were submitted (none after the
j-th), and no identifier list is returned. -/
theorem c6_failure_aborts (fs : FS) (root : List String) (d : SlurmDefaults)
    (m : Model) {ε : Type} (f : Run → RunArgs → Except ε String)
    (p : SubmitParams) (j : Nat) (e : ε)
    (hm : mkModel fs root d = .ok m) (hj : j < m.runs.length)
    (hok : ∀ k, (hk : k < j) → ∃ s,
        f (m.runs.get ⟨k, Nat.lt_trans hk hj⟩)
          (forwardedArgs root p (m.runs.get ⟨k, Nat.lt_trans hk hj⟩)) = .ok s)
    (he : f (m.runs.get ⟨j, hj⟩)
        (forwardedArgs root p (m.runs.get ⟨j, hj⟩)) = .error e) :
    (Model.submit m f p).result = .error (.runFailure e) ∧
    (Model.submit m f p).calls
        = (m.runs.take (j + 1)).map fun r => (r, forwardedArgs root p r) := by
  rcases mkModel_ok hm with ⟨hpath, _, hruns, _⟩
  subst hpath
  have hu : ∀ r ∈ m.runs, isUnder m.path r.path = true := by
    intro r hr
    rw [hruns] at hr
    exact isUnder_of_mem_collectRuns hr
  rcases submitFrom_err m.path m.defaults.verbose f p m.runs.length e m.runs j hj 1
    hu hok he with ⟨h1, h2⟩
  exact ⟨(submit_result_eq m f p).trans h1, (submit_calls_eq m f p).trans h2⟩

/-- C6, witness: with a stub failing on the second run, the call errors, and
only the first two runs were submitted. -/
theorem c6_witness :
    (Model.submit mTwo fFailY {}).result = .error (.runFailure "boom") ∧
    (Model.submit mTwo fFailY {}).calls
        = (mTwo.runs.take (1 + 1)).map fun r => (r, forwardedArgs ["r"] {} r) :=
  c6_failure_aborts fsTwo ["r"] {} mTwo fFailY {} 1 "boom" rfl (by decide)
    (fun k hk => by
      have hk0 : k = 0 := Nat.lt_one_iff.mp hk
      subst hk0
      exact ⟨"id0", rfl⟩)
    rfl

/-- C7, counterexample: the resolution `job_name or self._auto_job_name(run)`
uses Python truthiness, so a caller-supplied *empty* override string is a
given override that is nevertheless ignored: with override `some ""` the name
forwarded to the unit's submission is the derived name `"r"`, not `""`. -/
theorem c7_counterexample :
    mkModel fsSingle ["r"] {} = .ok mSingle ∧
    (Model.submit mSingle fConstId { job_name := some "" }).calls.map
        (fun c => c.2.job_name) = ["r"] ∧
    ("r" : String) ≠ "" := by
  refine ⟨rfl, rfl, by decide⟩

/-- C7, amended: the job name forwarded to every submitted unit is the
caller-supplied override whenever a *non-empty* one is given; otherwise (no
override, or the empty-string override, which Python's `or` treats as
absent) it is the derived name of §4.2 computed at submission time. -/
theorem c7_name_resolution (m : Model) {ε : Type}
    (f : Run → RunArgs → Except ε String) (p : SubmitParams) :
    (∀ n, p.job_name = some n → n ≠ "" →
      (Model.submit m f p).calls.map (fun c => c.2.job_name)
        = (Model.submit m f p).calls.map (fun _ => n)) ∧
    ((p.job_name = none ∨ p.job_name = some "") →
      (Model.submit m f p).calls.map (fun c => some c.2.job_name)
        = (Model.submit m f p).calls.map (fun c => autoJobName m.path c.1.path)) := by
  have hspec : ∀ c ∈ (Model.submit m f p).calls,
      ∃ nm, resolveName ε m.path p.job_name c.1 = .ok nm ∧ c.2 = mkRunArgs p nm := by
    intro c hc
    rw [submit_calls_eq] at hc
    exact submitFrom_calls_spec m.path m.defaults.verbose f p m.runs.length 1 m.runs c hc
  constructor
  · intro n hn hne
    apply List.map_congr_left
    intro c hc
    rcases hspec c hc with ⟨nm, hres, hargs⟩
    rw [hn] at hres
    rw [hargs, resolveName_some_ok hne hres]
    rfl
  · intro hfalsy
    apply List.map_congr_left
    intro c hc
    rcases hspec c hc with ⟨nm, hres, hargs⟩
    have hauto : autoJobName m.path c.1.path = some nm := by
      rcases hfalsy with hn | hn
      · rw [hn] at hres
        exact resolveName_none_ok hres
      · rw [hn] at hres
        exact resolveName_empty_ok hres
    rw [hargs, hauto]
    rfl

/-- C7, witness: with a non-empty override every forwarded name is that
override; with no override every forwarded name is the derived name. -/
theorem c7_witness :
    (Model.submit mSingle fConstId { job_name := some "X" }).calls.map
        (fun c => c.2.job_name)
      = (Model.submit mSingle fConstId { job_name := some "X" }).calls.map
        (fun _ => "X") ∧
    (Model.submit mSingle fConstId {}).calls.map (fun c => some c.2.job_name)
      = (Model.submit mSingle fConstId {}).calls.map
        (fun c => autoJobName mSingle.path c.1.path) :=
  ⟨(c7_name_resolution mSingle fConstId { job_name := some "X" }).1 "X" rfl
      (by decide),
   (c7_name_resolution mSingle fConstId {}).2 (Or.inl rfl)⟩

/-- C8: discovery always uses the fixed marker name `main.tcl` (the runs of
a constructed model are exactly those collected with that name), and the
`tcl_file` submission parameter changes only the input-filename field of the
forwarded arguments — never which Run Units are submitted or their order. -/
theorem c8_tcl_file_scope (fs : FS) (root : List String) (d : SlurmDefaults)
    (m : Model) {ε : Type} (f : Run → RunArgs → Except ε String)
    (g : Run → RunArgs → String) (p : SubmitParams) (t : String)
    (hm : mkModel fs root d = .ok m) (hf : ∀ r a, f r a = .ok (g r a)) :
    m.runs = collectRuns fs root d "main.tcl" ∧
    (∀ r, forwardedArgs root { p with tcl_file := t } r
        = { forwardedArgs root p r with tcl_file := t }) ∧
    (Model.submit m f { p with tcl_file := t }).calls.map Prod.fst = m.runs ∧
    (Model.submit m f p).calls.map Prod.fst = m.runs := by
  have h₁ := (submit_all_ok_spec fs root d m f g { p with tcl_file := t } hm hf).2
  have h₂ := (submit_all_ok_spec fs root d m f g p hm hf).2
  refine ⟨(mkModel_ok hm).2.2.1, fun r => rfl, ?_, ?_⟩
  · rw [h₁, List.map_map]
    simp [Function.comp_def]
  · rw [h₂, List.map_map]
    simp [Function.comp_def]

/-- C8, witness: submitting the two-run fixture with two different `tcl_file`
values submits the same units in the same order. -/
theorem c8_witness :
    mTwo.runs = collectRuns fsTwo ["r"] {} "main.tcl" ∧
    (∀ r, forwardedArgs ["r"] { ({} : SubmitParams) with tcl_file := "alt.tcl" } r
        = { forwardedArgs ["r"] {} r with tcl_file := "alt.tcl" }) ∧
    (Model.submit mTwo (fJobName Unit)
        { ({} : SubmitParams) with tcl_file := "alt.tcl" }).calls.map Prod.fst
      = mTwo.runs ∧
    (Model.submit mTwo (fJobName Unit) {}).calls.map Prod.fst = mTwo.runs :=
  c8_tcl_file_scope fsTwo ["r"] {} mTwo (fJobName Unit) gJobName {} "alt.tcl" rfl
    (fun _ _ => rfl)

/-- C9: for models constructed from the same filesystem and root with
defaults differing only in the verbosity flag, and a submission operation
insensitive to a run's verbosity field, the orchestration call returns the
same result and forwards the same argument records to the units' submissions
— verbosity gates only the printed output. -/
theorem c9_verbose_noninterference (fs : FS) (root : List String)
    (d : SlurmDefaults) (b₁ b₂ : Bool) (m₁ m₂ : Model) {ε : Type}
    (f : Run → RunArgs → Except ε String) (p : SubmitParams)
    (hm₁ : mkModel fs root { d with verbose := b₁ } = .ok m₁)
    (hm₂ : mkModel fs root { d with verbose := b₂ } = .ok m₂)
    (hf : ∀ r a b, f { r with verbose := b } a = f r a) :
    (Model.submit m₁ f p).result = (Model.submit m₂ f p).result ∧
    (Model.submit m₁ f p).calls.map Prod.snd
        = (Model.submit m₂ f p).calls.map Prod.snd := by
  rcases mkModel_ok hm₁ with ⟨hpath₁, hdef₁, hruns₁, _⟩
  rcases mkModel_ok hm₂ with ⟨hpath₂, hdef₂, hruns₂, _⟩
  have hr₁ : m₁.runs
      = (collectRuns fs root d "main.tcl").map fun r => { r with verbose := b₁ } := by
    rw [hruns₁, collectRuns_verbose]
  have hr₂ : m₂.runs
      = (collectRuns fs root d "main.tcl").map fun r => { r with verbose := b₂ } := by
    rw [hruns₂, collectRuns_verbose]
  have base := submitFrom_verbose root f p
    (collectRuns fs root d "main.tcl").length b₁ b₂ b₁ b₂ hf 1
    (collectRuns fs root d "main.tcl")
  simp only [submit_result_eq, submit_calls_eq, hpath₁, hpath₂, hdef₁, hdef₂,
    hr₁, hr₂, List.length_map]
  exact base

/-- C9, witness: the single-run fixture with verbosity on versus off, under a
verbosity-blind stub, gives the same result and the same forwarded
arguments. -/
theorem c9_witness :
    (Model.submit ⟨["r"], { verbose := true }, [makeRun { verbose := true } ["r"]]⟩
        (fJobName Unit) {}).result
      = (Model.submit ⟨["r"], {}, [makeRun {} ["r"]]⟩ (fJobName Unit) {}).result ∧
    (Model.submit ⟨["r"], { verbose := true }, [makeRun { verbose := true } ["r"]]⟩
        (fJobName Unit) {}).calls.map Prod.snd
      = (Model.submit ⟨["r"], {}, [makeRun {} ["r"]]⟩
          (fJobName Unit) {}).calls.map Prod.snd :=
  c9_verbose_noninterference fsSingle ["r"] {} true false
    ⟨["r"], { verbose := true }, [makeRun { verbose := true } ["r"]]⟩
    ⟨["r"], {}, [makeRun {} ["r"]]⟩ (fJobName Unit) {} rfl rfl
    (fun _ _ _ => rfl)

/-- C10: discovery tests only the existence of an entry named like the
marker, not that it is a regular file: a *directory* named `main.tcl`
directly inside the root makes the root a single run folder, and in the
recursive fallback a directory named `main.tcl` anywhere below the root
contributes its parent as a run folder. -/
theorem c10_marker_kind_ignored (fs : FS) (root q : List String)
    (d : SlurmDefaults) :
    (FSEntry.mk (root ++ ["main.tcl"]) EntryKind.dir ∈ fs →
      mkModel fs root d
        = .ok { path := root, defaults := d, runs := [makeRun d root] }) ∧
    (pexists fs (root ++ ["main.tcl"]) = false →
      FSEntry.mk q EntryKind.dir ∈ fs →
      isUnder root q = true → root.length < q.length →
      q.getLast? = some "main.tcl" →
      q.dropLast ∈ (collectRuns fs root d "main.tcl").map Run.path) := by
  constructor
  · intro hmem
    have hp : pexists fs (root ++ ["main.tcl"]) = true :=
      pexists_iff.mpr ⟨_, hmem, rfl⟩
    simp [mkModel, collectRuns_root_marker d hp]
  · intro hp hmem hu hlen hlast
    have hql : q ∈ rglobList fs root "main.tcl" :=
      mem_rglobList.mpr ⟨_, hmem, matchesMarker_iff.mpr ⟨hu, hlen, hlast⟩, rfl⟩
    have hqs : q ∈ sortPaths (rglobList fs root "main.tcl") :=
      (sortPaths_perm _).mem_iff.mpr hql
    have hneg : ¬ (pexists fs (root ++ ["main.tcl"]) = true) := by
      rw [hp]; simp
    unfold collectRuns
    rw [if_neg hneg, List.map_map]
    exact List.mem_map.mpr ⟨q, hqs, rfl⟩

/-- C10, witness: a directory named `main.tcl` directly in the root yields
the single root run; a directory named `main.tcl` below a marker-free root
contributes its parent folder. -/
theorem c10_witness :
    mkModel fsDirMarker ["r"] {}
        = .ok { path := ["r"], defaults := {}, runs := [makeRun {} ["r"]] } ∧
    (["r", "x", "main.tcl"] : List String).dropLast
        ∈ (collectRuns fsDirNested ["r"] {} "main.tcl").map Run.path :=
  ⟨(c10_marker_kind_ignored fsDirMarker ["r"] [] {}).1 (by decide),
   (c10_marker_kind_ignored fsDirNested ["r"] ["r", "x", "main.tcl"] {}).2
     (by decide) (by decide) (by decide) (by decide) (by decide)⟩
